import Mathlib

/-!
Verification of `source/util/bit_stream.h` (SPIRV-Tools bit stream utilities).

Machine integers are embedded as `Nat` (unsigned) and `Int` (signed), with
explicit `% 2^w` wherever the C++ computation can wrap.  A "stream" (a
`std::string` of '0'/'1' read left to right) is embedded as `List Char`;
individual bits are `Bool`.

The bodies of `WriteVariableWidth*` / `ReadVariableWidth*` and of the
`BitReaderWord64` methods live in `bit_stream.cpp`, which is not part of the
provided sources; those operations are modelled from the specification text
(see the doc comments starting with `Modelled from the spec:`).
-/

namespace spvutils

/-! ## Basic bit helpers -/

/-- Interpretation of a `Nat` as a uint64 value reinterpreted as an int64
(two's complement), as performed by a C++ `static_cast<int64_t>`. -/
def ofUInt64 (n : Nat) : Int :=
  if n < 2 ^ 63 then (n : Int) else (n : Int) - 2 ^ 64

/-- Interpretation of an `Int` as a uint64 (two's complement wraparound), as
performed by a C++ `static_cast<uint64_t>`. -/
def toUInt64 (v : Int) : Nat :=
  (v % (2 ^ 64 : Int)).toNat

/-- First `n` bits of a natural number, least significant first. -/
def natToBits : Nat → Nat → List Bool
  | 0, _ => []
  | n + 1, v => (v % 2 == 1) :: natToBits n (v / 2)

/-- Value of a bit list, first element least significant. -/
def bitsToNat : List Bool → Nat
  | [] => 0
  | b :: rest => (if b then 1 else 0) + 2 * bitsToNat rest

theorem natToBits_length (n v : Nat) : (natToBits n v).length = n := by
  induction n generalizing v with
  | zero => rfl
  | succ n ih => simp [natToBits, ih]

theorem bitsToNat_natToBits (n v : Nat) : bitsToNat (natToBits n v) = v % 2 ^ n := by
  induction n generalizing v with
  | zero => simp [natToBits, bitsToNat, Nat.mod_one]
  | succ n ih =>
    simp only [natToBits, bitsToNat, ih]
    have h2 : (2 : Nat) ^ (n + 1) = 2 * 2 ^ n := by ring
    rw [h2, Nat.mod_mul]
    rcases Nat.mod_two_eq_zero_or_one v with h | h <;> simp [h]

theorem bitsToNat_lt (l : List Bool) : bitsToNat l < 2 ^ l.length := by
  induction l with
  | nil => simp [bitsToNat]
  | cons b rest ih =>
    simp only [bitsToNat, List.length_cons]
    have h2 : (2 : Nat) ^ (rest.length + 1) = 2 * 2 ^ rest.length := by ring
    rcases b <;> simp <;> omega

/-! ## Definitions from the source header -/

/-- Embeds `NumBitsToNumWords<N>(num_bits)` (bit_stream.h, lines 38-41):
`(num_bits + (N - 1)) / N`, computed in `size_t`, so the sum wraps modulo
`2^64`.  The template parameter `N` is an explicit argument; both arguments
are `size_t` values (below `2^64`), and for `N ≥ 1` the subtraction `N - 1`
cannot wrap. -/
def NumBitsToNumWords (N num_bits : Nat) : Nat :=
  (num_bits + (N - 1)) % 2 ^ 64 / N

/-- Embeds `GetLowerBits<T>(in, num_bits)` (bit_stream.h, lines 45-48).  The
bit width `w` of the type `T` (`sizeof(T) * 8`) is an explicit argument:
`sizeof(T) * 8 == num_bits ? in : in & T((T(1) << num_bits) - T(1))`.
For `num_bits < w` the mask computation `(1 << num_bits) - 1` does not wrap,
so no `% 2^w` is needed on the `else` branch. -/
def GetLowerBits (w input num_bits : Nat) : Nat :=
  if w = num_bits then input else input &&& ((1 <<< num_bits) - 1)

/-- Embeds `EncodeZigZag(int64_t val)` (bit_stream.h, lines 58-60):
`(val << 1) ^ (val >> 63)`.  `val << 1` wraps to uint64; the arithmetic right
shift `val >> 63` is `0` for non-negative `val` and all ones for negative
`val`. -/
def EncodeZigZag (val : Int) : Nat :=
  toUInt64 (val * 2) ^^^ (if val < 0 then 2 ^ 64 - 1 else 0)

/-- Embeds `DecodeZigZag(uint64_t val)` (bit_stream.h, lines 63-77).  On the
negative branch `-1 - (val >> 1)` is computed in uint64 (the `-1` converts to
`2^64 - 1`; no underflow since `val >> 1 < 2^63`) and then converted back to
int64 on return. -/
def DecodeZigZag (val : Nat) : Int :=
  if val &&& 1 = 1 then
    ofUInt64 ((2 ^ 64 - 1) - (val >>> 1))
  else
    ofUInt64 (val >>> 1)

/-- Embeds the block-variant overload `EncodeZigZag(int64_t val, size_t
block_exponent)` (bit_stream.h, lines 87-93).  All intermediate values are
uint64, hence the `% 2 ^ 64` at each arithmetic step that could wrap. -/
def EncodeZigZagBlock (val : Int) (block_exponent : Nat) : Nat :=
  let uval : Nat := toUInt64 (if 0 ≤ val then val else -val - 1)
  let block_num : Nat := (((uval >>> block_exponent) <<< 1) + (if 0 ≤ val then 0 else 1)) % 2 ^ 64
  let pos : Nat := GetLowerBits 64 uval block_exponent
  ((block_num <<< block_exponent) + pos) % 2 ^ 64

/-- Embeds the block-variant overload `DecodeZigZag(uint64_t val, size_t
block_exponent)` (bit_stream.h, lines 97-108).  On the negative branch
`-1LL - ((block_num >> 1) << block_exponent) - pos` is computed in uint64 and
converted back to int64 on return. -/
def DecodeZigZagBlock (val : Nat) (block_exponent : Nat) : Int :=
  let block_num : Nat := val >>> block_exponent
  let pos : Nat := GetLowerBits 64 val block_exponent
  if block_num &&& 1 = 1 then
    ofUInt64 (((2 ^ 64 - 1) - ((block_num >>> 1) <<< block_exponent) % 2 ^ 64 - pos) % 2 ^ 64)
  else
    ofUInt64 ((((block_num >>> 1) <<< block_exponent) + pos) % 2 ^ 64)

/-! ## Arithmetic facts about the bit operations -/

theorem xor_all_ones {n x : Nat} (h : x < 2 ^ n) : x ^^^ (2 ^ n - 1) = 2 ^ n - 1 - x := by
  induction n generalizing x with
  | zero =>
    have hx : x = 0 := by omega
    subst hx; rfl
  | succ n ih =>
    have hpow : (2 : Nat) ^ (n + 1) = 2 * 2 ^ n := by ring
    have hq : x / 2 < 2 ^ n := by omega
    have hmask : (2 : Nat) ^ (n + 1) - 1 = Nat.bit true (2 ^ n - 1) := by
      rw [Nat.bit_val, Bool.toNat_true]; omega
    have hx : x = Nat.bit (x % 2 == 1) (x / 2) := by
      rcases Nat.mod_two_eq_zero_or_one x with h2 | h2 <;> simp [Nat.bit_val, h2] <;> omega
    rw [hmask, hx, Nat.xor_bit, ih hq]
    rcases Nat.mod_two_eq_zero_or_one x with h2 | h2 <;> simp [Nat.bit_val, h2] <;> omega

/-- Closed form of the plain zigzag encoder on the int64 range. -/
theorem encodeZigZag_eq (v : Int) (h1 : -(2 ^ 63) ≤ v) (h2 : v < 2 ^ 63) :
    EncodeZigZag v = if 0 ≤ v then (2 * v).toNat else (-2 * v - 1).toNat := by
  unfold EncodeZigZag toUInt64
  by_cases hv : v < 0
  · have hvmod : v * 2 % (2 ^ 64 : Int) = v * 2 + 2 ^ 64 := by omega
    rw [if_pos hv, if_neg (by omega), hvmod]
    have hlt : (v * 2 + 2 ^ 64).toNat < 2 ^ 64 := by omega
    rw [xor_all_ones hlt]
    omega
  · have hvmod : v * 2 % (2 ^ 64 : Int) = v * 2 := by omega
    rw [if_neg hv, if_pos (by omega), hvmod, Nat.xor_zero]
    omega

/-- Closed form of the plain zigzag decoder on the uint64 range. -/
theorem decodeZigZag_eq (u : Nat) (h : u < 2 ^ 64) :
    DecodeZigZag u =
      if u % 2 = 1 then -1 - ((u / 2 : Nat) : Int) else ((u / 2 : Nat) : Int) := by
  unfold DecodeZigZag ofUInt64
  rw [Nat.and_one_is_mod, Nat.shiftRight_eq_div_pow]
  by_cases hp : u % 2 = 1
  · rw [if_pos hp, if_pos hp, if_neg (by omega)]
    omega
  · rw [if_neg hp, if_neg hp, if_pos (by omega)]

theorem zigzag_plain_roundtrip (v : Int) (h1 : -(2 ^ 63) ≤ v) (h2 : v < 2 ^ 63) :
    DecodeZigZag (EncodeZigZag v) = v := by
  rw [encodeZigZag_eq v h1 h2]
  by_cases hv : 0 ≤ v
  · rw [if_pos hv, decodeZigZag_eq _ (by omega), if_neg (by omega)]
    omega
  · rw [if_neg hv, decodeZigZag_eq _ (by omega), if_pos (by omega)]
    omega

/-! ## Spec reference definitions for the block zigzag codec -/

/-- Modelled from the spec: reference definition of the block zigzag encoder,
written from the spec text of section 4.2 ("Block variant"): `mag = v≥0 ? v :
(-v - 1)`, `block_num = (mag >> k) << 1 | (v<0 ? 1 : 0)`, `pos = mag` masked
to `k` low bits, `encode = (block_num << k) + pos`.  Used to compare the
source implementation against the specification. -/
def specEncodeZigZagBlock (v : Int) (k : Nat) : Nat :=
  let mag : Nat := (if 0 ≤ v then v else -v - 1).toNat
  let block_num : Nat := ((mag >>> k) <<< 1) ||| (if v < 0 then 1 else 0)
  let pos : Nat := mag &&& (2 ^ k - 1)
  (block_num <<< k) + pos

/-- Modelled from the spec: reference definition of the block zigzag decoder
(spec section 4.2, "Decode inverts exactly"), in exact integer arithmetic:
`block_num = encoded >> k`, `pos = encoded` masked to `k` bits; odd
`block_num` gives `-1 - ((block_num>>1)<<k) - pos`, even gives
`((block_num>>1)<<k) + pos`. -/
def specDecodeZigZagBlock (u : Nat) (k : Nat) : Int :=
  let block_num : Nat := u >>> k
  let pos : Nat := u &&& (2 ^ k - 1)
  if block_num % 2 = 1 then
    -1 - (((block_num >>> 1) <<< k : Nat) : Int) - (pos : Int)
  else
    (((block_num >>> 1) <<< k : Nat) : Int) + (pos : Int)

theorem shiftLeft_one_or (a s : Nat) (hs : s < 2) : (a <<< 1) ||| s = (a <<< 1) + s := by
  have h := Nat.mul_add_lt_is_or (show s < 2 ^ 1 by omega) a
  rw [Nat.shiftLeft_eq, Nat.mul_comm a (2 ^ 1)]
  exact h.symm

theorem lor_shiftLeft_eq_add {acc m k : Nat} (h : acc < 2 ^ k) :
    acc ||| (m <<< k) = acc + m * 2 ^ k := by
  rw [Nat.shiftLeft_eq, Nat.lor_comm, Nat.mul_comm m (2 ^ k), ← Nat.mul_add_lt_is_or h m]
  omega

/-- The block zigzag encoding of an in-range magnitude fits in 64 bits. -/
theorem block_encode_lt {mag k s : Nat} (hmag : mag < 2 ^ 63) (hk : k ≤ 63) (hs : s ≤ 1) :
    (mag / 2 ^ k * 2 + s) * 2 ^ k + mag % 2 ^ k < 2 ^ 64 := by
  have hsplit : 2 ^ (63 - k) * 2 ^ k = 2 ^ 63 := by
    rw [← pow_add]; congr 1; omega
  have hq : mag / 2 ^ k < 2 ^ (63 - k) := by
    apply Nat.div_lt_of_lt_mul
    rw [Nat.mul_comm]
    omega
  have hq1 : (mag / 2 ^ k + 1) * 2 ^ k ≤ 2 ^ (63 - k) * 2 ^ k :=
    Nat.mul_le_mul_right _ hq
  have hr : mag % 2 ^ k < 2 ^ k := Nat.mod_lt _ (by positivity)
  have hexp : (mag / 2 ^ k * 2 + s) * 2 ^ k = 2 * (mag / 2 ^ k * 2 ^ k) + s * 2 ^ k := by
    ring
  have hq2 : (mag / 2 ^ k + 1) * 2 ^ k = mag / 2 ^ k * 2 ^ k + 2 ^ k := by ring
  have hs2 : s * 2 ^ k ≤ 1 * 2 ^ k := Nat.mul_le_mul_right _ hs
  have h64 : (2 : Nat) ^ 64 = 2 * 2 ^ 63 := by ring
  rw [hexp]
  omega

theorem encodeZigZagBlock_eq_spec (v : Int) (k : Nat)
    (h1 : -(2 ^ 63) ≤ v) (h2 : v < 2 ^ 63) (hk : k < 64) :
    EncodeZigZagBlock v k = specEncodeZigZagBlock v k := by
  simp only [EncodeZigZagBlock, specEncodeZigZagBlock, GetLowerBits, toUInt64]
  have hxmod : (if 0 ≤ v then v else -v - 1) % (2 ^ 64 : Int)
      = (if 0 ≤ v then v else -v - 1) := by
    split <;> omega
  have hss : (if 0 ≤ v then (0 : Nat) else 1) = (if v < 0 then (1 : Nat) else 0) := by
    by_cases h : 0 ≤ v
    · rw [if_pos h, if_neg (by omega)]
    · rw [if_neg h, if_pos (by omega)]
  rw [hxmod, if_neg (by omega : ¬ (64 = k)), hss]
  set mag := (if 0 ≤ v then v else -v - 1).toNat with hmagdef
  set s := (if v < 0 then (1 : Nat) else 0) with hsdef
  have hmaglt : mag < 2 ^ 63 := by
    rw [hmagdef]; split <;> omega
  have hslt : s < 2 := by
    rw [hsdef]; split <;> omega
  rw [shiftLeft_one_or _ s hslt]
  simp only [Nat.shiftLeft_eq, Nat.shiftRight_eq_div_pow, pow_one, one_mul,
    Nat.and_pow_two_sub_one_eq_mod]
  have hdivle : mag / 2 ^ k ≤ mag := Nat.div_le_self _ _
  rw [Nat.mod_eq_of_lt (show mag / 2 ^ k * 2 + s < 2 ^ 64 by omega)]
  rw [Nat.mod_eq_of_lt (block_encode_lt hmaglt (by omega) (by omega))]

/-- The reconstructed magnitude part during block zigzag decoding stays below
`2^63`, so the uint64 computation in the source never wraps. -/
theorem block_decode_lt {u k : Nat} (hu : u < 2 ^ 64) (hk : k ≤ 63) :
    u / 2 ^ k / 2 * 2 ^ k + u % 2 ^ k < 2 ^ 63 := by
  have hsplit : 2 ^ (63 - k) * (2 ^ k * 2) = 2 ^ 64 := by
    rw [show (2 : Nat) ^ k * 2 = 2 ^ (k + 1) by ring, ← pow_add]
    congr 1
    omega
  have hB : 2 ^ (63 - k) * 2 ^ k = 2 ^ 63 := by
    rw [← pow_add]; congr 1; omega
  have hd : u / 2 ^ k / 2 = u / (2 ^ k * 2) := Nat.div_div_eq_div_mul _ _ _
  have hq : u / (2 ^ k * 2) < 2 ^ (63 - k) := by
    apply Nat.div_lt_of_lt_mul
    rw [Nat.mul_comm]
    omega
  have hq1 : (u / (2 ^ k * 2) + 1) * 2 ^ k ≤ 2 ^ (63 - k) * 2 ^ k := Nat.mul_le_mul_right _ hq
  have hq2 : (u / (2 ^ k * 2) + 1) * 2 ^ k = u / (2 ^ k * 2) * 2 ^ k + 2 ^ k := by ring
  have hr : u % 2 ^ k < 2 ^ k := Nat.mod_lt _ (by positivity)
  rw [hd]
  omega

theorem decodeZigZagBlock_eq_spec (u : Nat) (k : Nat) (hu : u < 2 ^ 64) (hk : k < 64) :
    DecodeZigZagBlock u k = specDecodeZigZagBlock u k := by
  have hlt := @block_decode_lt u k hu (by omega)
  simp only [DecodeZigZagBlock, specDecodeZigZagBlock, GetLowerBits, ofUInt64]
  rw [if_neg (by omega : ¬ (64 = k))]
  simp only [Nat.shiftLeft_eq, Nat.shiftRight_eq_div_pow, pow_one, one_mul,
    Nat.and_one_is_mod, Nat.and_pow_two_sub_one_eq_mod]
  by_cases hpar : u / 2 ^ k % 2 = 1
  · rw [if_pos hpar, if_pos hpar]
    rw [Nat.mod_eq_of_lt (show u / 2 ^ k / 2 * 2 ^ k < 2 ^ 64 by omega)]
    rw [Nat.mod_eq_of_lt
      (show 2 ^ 64 - 1 - u / 2 ^ k / 2 * 2 ^ k - u % 2 ^ k < 2 ^ 64 by omega)]
    rw [if_neg (by omega)]
    omega
  · rw [if_neg hpar, if_neg hpar]
    rw [Nat.mod_eq_of_lt (show u / 2 ^ k / 2 * 2 ^ k + u % 2 ^ k < 2 ^ 64 by omega)]
    rw [if_pos (by omega)]
    push_cast
    ring

/-- The spec's reference block zigzag codec is a bijection: decode inverts
encode, for every integer and every block exponent. -/
theorem spec_block_roundtrip (v : Int) (k : Nat) :
    specDecodeZigZagBlock (specEncodeZigZagBlock v k) k = v := by
  simp only [specEncodeZigZagBlock, specDecodeZigZagBlock]
  have hs : (if v < 0 then (1 : Nat) else 0) < 2 := by split <;> omega
  rw [shiftLeft_one_or _ _ hs]
  set s := (if v < 0 then (1 : Nat) else 0) with hsdef
  set mag := (if 0 ≤ v then v else -v - 1).toNat with hmagdef
  simp only [Nat.shiftLeft_eq, Nat.shiftRight_eq_div_pow, pow_one, one_mul,
    Nat.and_pow_two_sub_one_eq_mod]
  have hP : 0 < 2 ^ k := by positivity
  have hr : mag % 2 ^ k < 2 ^ k := Nat.mod_lt _ hP
  have he : (mag / 2 ^ k * 2 + s) * 2 ^ k + mag % 2 ^ k
      = 2 ^ k * (mag / 2 ^ k * 2 + s) + mag % 2 ^ k := by ring
  rw [he, Nat.mul_add_div hP, Nat.mul_add_mod, Nat.div_eq_of_lt hr, Nat.mod_eq_of_lt hr,
    Nat.add_zero]
  have hM2 : (mag / 2 ^ k * 2 + s) / 2 = mag / 2 ^ k := by omega
  rw [hM2]
  have hqq : mag / 2 ^ k * 2 ^ k + mag % 2 ^ k = mag := by
    rw [Nat.mul_comm]
    exact Nat.div_add_mod _ _
  by_cases hv : 0 ≤ v
  · have hs0 : s = 0 := by rw [hsdef, if_neg (by omega)]
    have hmagv : mag = v.toNat := by rw [hmagdef, if_pos hv]
    rw [if_neg (by omega)]
    omega
  · have hs1 : s = 1 := by rw [hsdef, if_pos (by omega)]
    have hmagv : mag = (-v - 1).toNat := by rw [hmagdef, if_neg hv]
    rw [if_pos (by omega)]
    omega

/-- At block exponent zero the spec's block encoder computes the plain zigzag
closed form. -/
theorem specEncode_zero (v : Int) :
    specEncodeZigZagBlock v 0 = (if 0 ≤ v then (2 * v).toNat else (-2 * v - 1).toNat) := by
  simp only [specEncodeZigZagBlock]
  have hs : (if v < 0 then (1 : Nat) else 0) < 2 := by split <;> omega
  rw [shiftLeft_one_or _ _ hs]
  simp only [Nat.shiftLeft_eq, Nat.shiftRight_eq_div_pow, pow_zero, pow_one,
    Nat.div_one, Nat.mul_one, Nat.sub_self, Nat.and_zero, Nat.add_zero]
  by_cases hv : 0 ≤ v
  · rw [if_pos hv, if_pos hv, if_neg (by omega)]
    omega
  · rw [if_neg hv, if_neg hv, if_pos (by omega)]
    omega

/-- At block exponent zero the spec's block decoder computes the plain zigzag
closed form. -/
theorem specDecode_zero (u : Nat) :
    specDecodeZigZagBlock u 0 =
      (if u % 2 = 1 then -1 - ((u / 2 : Nat) : Int) else ((u / 2 : Nat) : Int)) := by
  simp only [specDecodeZigZagBlock, Nat.shiftRight_eq_div_pow, Nat.shiftLeft_eq,
    pow_zero, pow_one, Nat.div_one, Nat.mul_one, Nat.sub_self, Nat.and_zero]
  split <;> push_cast <;> ring

/-! ## Variable-width chunked encoding (modelled from the spec) -/

/-- Modelled from the spec: the body of `BitWriterInterface::WriteVariableWidthU64`
(and the narrower-width variants, declared in bit_stream.h lines 221-224) lives
in `bit_stream.cpp`, which is not among the provided sources.  Encoding per
spec section 4.3: emit the next `C`-bit slice of the value, least significant
first; if the number of bits emitted so far has reached `W`, stop with no
continuation bit; otherwise emit a continuation bit, 1 if the remaining
higher-order bits are non-zero (more chunks follow) or 0 if none remain (last
chunk).  `r` is the number of payload bits not yet emitted (initially `W`) and
`fuel` bounds the number of loop iterations; for `C ≥ 1`, `W` iterations
always suffice. -/
def vwEncodeAux (C : Nat) : Nat → Nat → Nat → List Bool
  | 0, _, _ => []
  | fuel + 1, r, val =>
    let chunk := natToBits C val
    if r ≤ C then chunk
    else if val >>> C ≠ 0 then chunk ++ true :: vwEncodeAux C fuel (r - C) (val >>> C)
    else chunk ++ [false]

/-- Modelled from the spec: the variable-width encoder for total width `W` and
chunk length `C` over a bit stream, spec section 4.3. -/
def writeVariableWidth (W C val : Nat) : List Bool :=
  vwEncodeAux C W W val

/-- Modelled from the spec: the body of `BitReaderInterface::ReadVariableWidthU64`
(and the narrower-width variants, declared in bit_stream.h lines 336-339) lives
in `bit_stream.cpp`.  Decoding per spec section 4.3: while fewer than `W` bits
have been consumed, read `C` bits and OR them, left-shifted into position,
into the accumulator (of width `W`); if the consumed count reached `W`,
succeed; otherwise read one continuation bit, 0 meaning success and 1 meaning
continue.  A raw bit read that returns fewer bits than requested (the list
runs out) makes decoding fail, returning `none`.  `k` is the number of
payload bits consumed so far and `fuel` bounds the iterations as in
`vwEncodeAux`. -/
def vwDecodeAux (C W : Nat) : Nat → Nat → Nat → List Bool → Option (Nat × List Bool)
  | 0, _, _, _ => none
  | fuel + 1, k, acc, s =>
    if s.length < C then none
    else
      let acc2 := (acc ||| (bitsToNat (s.take C) <<< k)) % 2 ^ W
      let rest := s.drop C
      if W ≤ k + C then some (acc2, rest)
      else
        match rest with
        | [] => none
        | b :: rest2 => if b then vwDecodeAux C W fuel (k + C) acc2 rest2 else some (acc2, rest2)

/-- Modelled from the spec: the variable-width decoder for total width `W` and
chunk length `C`, returning the decoded value and the unconsumed bits, or
`none` if the stream ends prematurely. -/
def readVariableWidth (W C : Nat) (s : List Bool) : Option (Nat × List Bool) :=
  vwDecodeAux C W W 0 0 s

/-- Modelled from the spec: a signed variable-width read
(`ReadVariableWidthS64` and the narrower variants, bit_stream.h lines
340-347) reads the unsigned encoding and then inverts the zigzag transform
with the given block exponent; a failed unsigned read propagates as failure. -/
def readVariableWidthSigned (W C zigzag_exponent : Nat) (s : List Bool) :
    Option (Int × List Bool) :=
  match readVariableWidth W C s with
  | none => none
  | some (u, rest) => some (DecodeZigZagBlock u zigzag_exponent, rest)

theorem add_mul_pow_lt {acc v k c : Nat} (ha : acc < 2 ^ k) (hv : v < 2 ^ c) :
    acc + v * 2 ^ k < 2 ^ (k + c) := by
  have h1 : (v + 1) * 2 ^ k ≤ 2 ^ c * 2 ^ k := Nat.mul_le_mul_right _ hv
  have h2 : (v + 1) * 2 ^ k = v * 2 ^ k + 2 ^ k := by ring
  have h3 : 2 ^ (k + c) = 2 ^ c * 2 ^ k := by rw [← pow_add]; congr 1; omega
  omega

theorem div_pow_lt {v a c : Nat} (hv : v < 2 ^ a) (hc : c ≤ a) : v / 2 ^ c < 2 ^ (a - c) := by
  apply Nat.div_lt_of_lt_mul
  have h : 2 ^ c * 2 ^ (a - c) = 2 ^ a := by rw [← pow_add]; congr 1; omega
  omega

/-- Decoding an encoded value, starting mid-stream with `k` bits already
consumed and `acc` accumulated, consumes exactly the encoding and recovers
the full value. -/
theorem vw_aux_roundtrip (fuel : Nat) :
    ∀ C W k acc v rest, 1 ≤ C → k < W → W - k ≤ fuel → v < 2 ^ (W - k) → acc < 2 ^ k →
    vwDecodeAux C W fuel k acc (vwEncodeAux C fuel (W - k) v ++ rest)
      = some (acc + v * 2 ^ k, rest) := by
  induction fuel with
  | zero => intro C W k acc v rest hC hk hfuel hv hacc; omega
  | succ fuel ih =>
    intro C W k acc v rest hC hk hfuel hv hacc
    have hchunk : (natToBits C v).length = C := natToBits_length C v
    have hpos : 0 < 2 ^ C := by positivity
    simp only [vwEncodeAux, vwDecodeAux]
    by_cases hrC : W - k ≤ C
    · rw [if_pos hrC, List.take_left' hchunk, List.drop_left' hchunk,
        if_neg (by simp [List.length_append, hchunk])]
      rw [if_pos (show W ≤ k + C by omega)]
      have hvC : v % 2 ^ C = v :=
        Nat.mod_eq_of_lt (lt_of_lt_of_le hv (Nat.pow_le_pow_right (by norm_num) (by omega)))
      rw [bitsToNat_natToBits, hvC, lor_shiftLeft_eq_add hacc]
      have hlt : acc + v * 2 ^ k < 2 ^ W := by
        have h1 := add_mul_pow_lt hacc hv
        have h2 : 2 ^ (k + (W - k)) ≤ 2 ^ W := Nat.pow_le_pow_right (by norm_num) (by omega)
        omega
      rw [Nat.mod_eq_of_lt hlt]
    · rw [if_neg hrC]
      have hkCW : k + C < W := by omega
      have hle : (2 : Nat) ^ (k + C) ≤ 2 ^ W := Nat.pow_le_pow_right (by norm_num) (by omega)
      by_cases hv0 : v >>> C ≠ 0
      · rw [if_pos hv0]
        rw [List.append_assoc, List.cons_append, List.take_left' hchunk,
          List.drop_left' hchunk,
          if_neg (by simp [List.length_append, hchunk])]
        rw [if_neg (show ¬ (W ≤ k + C) by omega)]
        have hmod : v % 2 ^ C < 2 ^ C := Nat.mod_lt _ hpos
        rw [bitsToNat_natToBits, lor_shiftLeft_eq_add hacc]
        have hacc2 : acc + v % 2 ^ C * 2 ^ k < 2 ^ (k + C) := add_mul_pow_lt hacc hmod
        rw [Nat.mod_eq_of_lt (lt_of_lt_of_le hacc2 hle)]
        have hsub : W - k - C = W - (k + C) := by omega
        have hshift : v >>> C = v / 2 ^ C := Nat.shiftRight_eq_div_pow v C
        have hvdiv : v / 2 ^ C < 2 ^ (W - (k + C)) := by
          have := div_pow_lt hv (show C ≤ W - k by omega)
          rw [hsub] at this
          exact this
        rw [hsub, hshift]
        have hdm : 2 ^ C * (v / 2 ^ C) + v % 2 ^ C = v := Nat.div_add_mod v (2 ^ C)
        have hp : (2 : Nat) ^ (k + C) = 2 ^ k * 2 ^ C := pow_add 2 k C
        have hval : acc + v % 2 ^ C * 2 ^ k + v / 2 ^ C * 2 ^ (k + C) = acc + v * 2 ^ k := by
          conv_rhs => rw [← hdm]
          rw [hp]
          ring
        rw [← hval]
        exact ih C W (k + C) _ (v / 2 ^ C) rest hC hkCW (by omega) hvdiv hacc2
      · rw [if_neg hv0]
        have hvz : v >>> C = 0 := by omega
        have hvC : v < 2 ^ C := by
          rw [Nat.shiftRight_eq_div_pow] at hvz
          exact (Nat.div_eq_zero_iff hpos).mp hvz
        rw [List.append_assoc, List.singleton_append, List.take_left' hchunk,
          List.drop_left' hchunk,
          if_neg (by simp [List.length_append, hchunk])]
        rw [if_neg (show ¬ (W ≤ k + C) by omega)]
        rw [bitsToNat_natToBits, Nat.mod_eq_of_lt hvC, lor_shiftLeft_eq_add hacc]
        have hacc2 : acc + v * 2 ^ k < 2 ^ (k + C) := add_mul_pow_lt hacc hvC
        rw [Nat.mod_eq_of_lt (lt_of_lt_of_le hacc2 hle)]
        rfl

/-- Decoding any strict prefix of an encoding fails: the decoder reports
`none` rather than returning a partial value. -/
theorem vw_aux_prefix_fail (fuel : Nat) :
    ∀ C W k acc v s u, 1 ≤ C → k < W → W - k ≤ fuel → v < 2 ^ (W - k) →
    s ++ u = vwEncodeAux C fuel (W - k) v →
    s.length < (vwEncodeAux C fuel (W - k) v).length →
    vwDecodeAux C W fuel k acc s = none := by
  induction fuel with
  | zero => intro C W k acc v s u hC hk hfuel hv hu hlen; omega
  | succ fuel ih =>
    intro C W k acc v s u hC hk hfuel hv hu hlen
    have hchunk : (natToBits C v).length = C := natToBits_length C v
    simp only [vwEncodeAux] at hu hlen
    simp only [vwDecodeAux]
    by_cases hsl : s.length < C
    · rw [if_pos hsl]
    · rw [if_neg hsl]
      push_neg at hsl
      by_cases hrC : W - k ≤ C
      · rw [if_pos hrC] at hlen
        rw [hchunk] at hlen
        omega
      · rw [if_neg hrC] at hu hlen
        rw [if_neg (show ¬ (W ≤ k + C) by omega)]
        by_cases hv0 : v >>> C ≠ 0
        · rw [if_pos hv0] at hu hlen
          have hdrop : s.drop C ++ u
              = true :: vwEncodeAux C fuel (W - k - C) (v >>> C) := by
            have h1 := congrArg (List.drop C) hu
            rwa [List.drop_append_eq_append_drop, Nat.sub_eq_zero_of_le hsl,
              List.drop_zero, List.drop_left' hchunk] at h1
          rcases hd : s.drop C with _ | ⟨b, s3⟩
          · rfl
          · rw [hd] at hdrop
            have hb : b = true := by
              have := congrArg (fun l => List.head? l) hdrop
              simpa using this
            have hs3 : s3 ++ u = vwEncodeAux C fuel (W - k - C) (v >>> C) := by
              have := congrArg (fun l => List.tail l) hdrop
              simpa using this
            have hdl : (s.drop C).length = s.length - C := List.length_drop _ _
            rw [hd] at hdl
            have hlen2 : s3.length
                < (vwEncodeAux C fuel (W - k - C) (v >>> C)).length := by
              simp only [List.length_append, List.length_cons, hchunk] at hlen
              simp only [List.length_cons] at hdl
              omega
            have hsub : W - k - C = W - (k + C) := by omega
            have hshift : v >>> C = v / 2 ^ C := Nat.shiftRight_eq_div_pow v C
            have hvdiv : v / 2 ^ C < 2 ^ (W - (k + C)) := by
              have h2 := div_pow_lt hv (show C ≤ W - k by omega)
              rw [hsub] at h2
              exact h2
            rw [hsub, hshift] at hs3 hlen2
            rw [hb]
            exact ih C W (k + C) _ (v / 2 ^ C) s3 u hC (by omega) (by omega) hvdiv hs3 hlen2
        · rw [if_neg hv0] at hu hlen
          have hslen : s.length = C := by
            have h1 := congrArg List.length hu
            simp only [List.length_append, List.length_cons, List.length_nil, hchunk] at h1 hlen
            omega
          have hdl : (s.drop C).length = 0 := by
            rw [List.length_drop]
            omega
          rw [List.eq_nil_of_length_eq_zero hdl]

/-! ## String padding, writer byte view, reader end detection -/

/-- Embeds `PadToWord<N>(str)` (bit_stream.h, lines 149-155): adds '0' chars
at the end of the string until the size is a multiple of `N`. -/
def PadToWord (N : Nat) (str : List Char) : List Char :=
  let tail_length := str.length % N
  if tail_length ≠ 0 then str ++ List.replicate (N - tail_length) '0' else str

/-- State of `BitWriterWord64` (bit_stream.h, lines 256-284): a buffer of
64-bit words and `end_`, the total number of bits written so far. -/
structure BitWriterWord64 where
  buffer : List Nat
  end_ : Nat

/-- Embeds `BitWriterWord64::GetNumBits` (bit_stream.h, lines 262-264). -/
def GetNumBits (w : BitWriterWord64) : Nat := w.end_

/-- Bytes of one 64-bit word, lowest byte first: the in-memory byte
reinterpretation of a word on the host layout assumed by the source. -/
def wordToBytes (word : Nat) : List Nat :=
  (List.range 8).map (fun j => (word >>> (8 * j)) % 256)

/-- Embeds `BitWriterWord64::GetData` (bit_stream.h, lines 266-268): the
word buffer reinterpreted byte-for-byte. -/
def GetData (w : BitWriterWord64) : List Nat :=
  (w.buffer.map wordToBytes).flatten

/-- Embeds `BitWriterInterface::GetDataSizeBytes` (bit_stream.h, lines
243-245): `NumBitsToNumWords<8>(GetNumBits())`. -/
def GetDataSizeBytes (w : BitWriterWord64) : Nat :=
  NumBitsToNumWords 8 (GetNumBits w)

/-- Embeds `BitWriterWord64::GetDataCopy` (bit_stream.h, lines 270-272): the
first `GetDataSizeBytes()` bytes of the byte view. -/
def GetDataCopy (w : BitWriterWord64) : List Nat :=
  (GetData w).take (GetDataSizeBytes w)

/-- State of `BitReaderWord64` (bit_stream.h, lines 356-374): an immutable
word buffer and a forward-only bit position. -/
structure BitReaderWord64 where
  buffer : List Nat
  pos : Nat

/-- Bit capacity of the reader's buffer: word count times the word width. -/
def capacity (r : BitReaderWord64) : Nat := 64 * r.buffer.length

/-- Bit `i` of the reader's buffer; bit 0 of a word is its first logical
bit. -/
def bufferBit (r : BitReaderWord64) (i : Nat) : Bool :=
  (r.buffer.getD (i / 64) 0 >>> (i % 64)) % 2 == 1

/-- Modelled from the spec: `BitReaderWord64::ReachedEnd` (declared at
bit_stream.h line 367, body in bit_stream.cpp, not among the provided
sources): hard EOF, the position has reached the buffer's total bit
capacity. -/
def ReachedEnd (r : BitReaderWord64) : Bool := decide (capacity r ≤ r.pos)

/-- Embeds the default `BitReaderInterface::OnlyZeroesLeft` (bit_stream.h,
lines 329-331), which simply delegates to `ReachedEnd()`. -/
def defaultOnlyZeroesLeft (r : BitReaderWord64) : Bool := ReachedEnd r

/-- Modelled from the spec: `BitReaderWord64::OnlyZeroesLeft` (declared at
bit_stream.h line 368, body in bit_stream.cpp): soft EOF — true whenever
`ReachedEnd()` is true, and also when every remaining bit ahead of the read
position is zero; never true while a non-zero bit remains ahead. -/
def OnlyZeroesLeft (r : BitReaderWord64) : Bool :=
  ReachedEnd r || decide (∀ i, i < capacity r → r.pos ≤ i → bufferBit r i = false)

/-! ## Buffer/stream string conversions -/

/-- Rendering of one bit as the character the source strings use. -/
def bitChar (b : Bool) : Char := if b then '1' else '0'

/-- Bit denoted by one stream character (std::bitset maps '1' to a set
bit). -/
def charBit (c : Char) : Bool := c == '1'

/-- Embeds `BufferToStream<T>(buffer)` (bit_stream.h, lines 111-122), with
the word bit width `w = sizeof(T) * 8` explicit: each word is printed by
`std::bitset::to_string` (most significant first) and then reversed, i.e.
rendered least significant bit first, and the per-word strings are
concatenated in buffer order. -/
def BufferToStream (w : Nat) (buffer : List Nat) : List Char :=
  (buffer.map (fun word => (natToBits w word).map bitChar)).flatten

/-- Embeds `StreamToBuffer<T>(str)` (bit_stream.h, lines 126-146).  The C++
reverses the string and walks `w`-char windows backwards from its end, which
is the same as cutting the original left-to-right string into `w`-char chunks
front to back (the final chunk may be shorter); each chunk is parsed by
`std::bitset(str, pos, n)` on reversed text, so its first character is bit 0
of the produced word. -/
def StreamToBuffer (w : Nat) : List Char → List Nat
  | [] => []
  | c :: rest =>
    bitsToNat (((c :: rest).take w).map charBit) :: StreamToBuffer w (rest.drop (w - 1))
  termination_by l => l.length
  decreasing_by simp only [List.length_drop, List.length_cons]; omega

/-! ## Supporting lemmas for padding, byte views and stream conversions -/

theorem padToWord_append (N : Nat) (s : List Char) :
    ∃ m, PadToWord N s = s ++ List.replicate m '0' := by
  simp only [PadToWord]
  split
  · exact ⟨_, rfl⟩
  · exact ⟨0, by simp⟩

theorem padToWord_length (N : Nat) (hN : 1 ≤ N) (s : List Char) :
    (PadToWord N s).length % N = 0 := by
  simp only [PadToWord]
  split
  · next h =>
    have hml : s.length % N < N := Nat.mod_lt _ (by omega)
    rw [List.length_append, List.length_replicate, Nat.add_mod,
      Nat.mod_eq_of_lt (show N - s.length % N < N by omega),
      show s.length % N + (N - s.length % N) = N by omega, Nat.mod_self]
  · next h =>
    simpa using h

theorem wordToBytes_length (x : Nat) : (wordToBytes x).length = 8 := by
  simp [wordToBytes]

theorem getData_length (w : BitWriterWord64) : (GetData w).length = 8 * w.buffer.length := by
  obtain ⟨buf, e⟩ := w
  show ((buf.map wordToBytes).flatten).length = 8 * buf.length
  rw [List.length_flatten, List.map_map]
  induction buf with
  | nil => rfl
  | cons x l ih =>
    simp only [List.map_cons, List.sum_cons, Function.comp_apply, wordToBytes_length,
      List.length_cons, ih]
    ring

theorem numBitsToNumWords_ceil (N bits : Nat) (hN : 1 ≤ N)
    (hov : bits + (N - 1) < 2 ^ 64) :
    bits ≤ N * NumBitsToNumWords N bits ∧ N * NumBitsToNumWords N bits < bits + N := by
  unfold NumBitsToNumWords
  rw [Nat.mod_eq_of_lt hov]
  have hdm := Nat.div_add_mod (bits + (N - 1)) N
  have hml : (bits + (N - 1)) % N < N := Nat.mod_lt _ (by omega)
  omega

theorem getDataCopy_length (w : BitWriterWord64) (h : GetNumBits w ≤ 64 * w.buffer.length)
    (hov : GetNumBits w + 7 < 2 ^ 64) :
    (GetDataCopy w).length = GetDataSizeBytes w := by
  unfold GetDataCopy
  rw [List.length_take, getData_length]
  unfold GetDataSizeBytes NumBitsToNumWords GetNumBits at *
  omega

theorem charBit_bitChar (b : Bool) : charBit (bitChar b) = b := by
  rcases b <;> rfl

theorem streamToBuffer_cons_chunk (w : Nat) (c : Char) (cr s : List Char)
    (hc : cr.length = w - 1) (hw : 1 ≤ w) :
    StreamToBuffer w (c :: (cr ++ s))
      = bitsToNat ((c :: cr).map charBit) :: StreamToBuffer w s := by
  have h1 : (c :: (cr ++ s)).take w = c :: cr := by
    have hw2 : w = cr.length + 1 := by omega
    rw [hw2, List.take_succ_cons, List.take_left]
  have h2 : (cr ++ s).drop (w - 1) = s := by
    have hw2 : w - 1 = cr.length := by omega
    rw [hw2, List.drop_left]
  rw [StreamToBuffer, h1, h2]

theorem stream_buffer_roundtrip_aux (w : Nat) (hw : 1 ≤ w) :
    ∀ buffer : List Nat, (∀ x ∈ buffer, x < 2 ^ w) →
    StreamToBuffer w (BufferToStream w buffer) = buffer := by
  intro buffer
  induction buffer with
  | nil =>
    intro _
    show StreamToBuffer w [] = []
    rw [StreamToBuffer]
  | cons word rest ih =>
    intro hb
    have hword : word < 2 ^ w := hb word (List.mem_cons_self _ _)
    have hrest : ∀ x ∈ rest, x < 2 ^ w := fun x hx => hb x (List.mem_cons_of_mem _ hx)
    have hbs : BufferToStream w (word :: rest)
        = (natToBits w word).map bitChar ++ BufferToStream w rest := by
      simp [BufferToStream]
    rw [hbs]
    rcases hce : (natToBits w word).map bitChar with _ | ⟨c, cr⟩
    · have hlen := congrArg List.length hce
      simp [natToBits_length] at hlen
      omega
    · have hlen := congrArg List.length hce
      simp only [List.length_map, natToBits_length, List.length_cons] at hlen
      rw [List.cons_append,
        streamToBuffer_cons_chunk w c cr _ (by omega) hw, ← hce, List.map_map]
      have hid : charBit ∘ bitChar = id := by
        funext b
        exact charBit_bitChar b
      rw [hid, List.map_id, bitsToNat_natToBits, Nat.mod_eq_of_lt hword, ih hrest]

/-! ## Claim theorems -/

/-- C1: for every chunk length `C` in [1,64] and every value representable in
the unsigned width `W` (`W` one of 8, 16, 32, 64), encoding the value with
the variable-width chunked encoder and then decoding with the matching
variable-width read over the produced stream, using the same chunk length,
reproduces the original value exactly (with the whole stream consumed). -/
theorem claim1_chunked_roundtrip (W C val : Nat)
    (hW : W = 8 ∨ W = 16 ∨ W = 32 ∨ W = 64) (hC1 : 1 ≤ C) (hC2 : C ≤ 64)
    (hval : val < 2 ^ W) :
    readVariableWidth W C (writeVariableWidth W C val) = some (val, []) := by
  have hW1 : 1 ≤ W := by rcases hW with h | h | h | h <;> omega
  unfold readVariableWidth writeVariableWidth
  have h := vw_aux_roundtrip W C W 0 0 val [] hC1 (by omega) (by omega)
    (by rw [Nat.sub_zero]; exact hval) (by norm_num)
  rw [Nat.sub_zero] at h
  simpa using h

theorem claim1_chunked_roundtrip_witness :
    ((8 : Nat) = 8 ∨ (8 : Nat) = 16 ∨ (8 : Nat) = 32 ∨ (8 : Nat) = 64) ∧ 1 ≤ 4 ∧ 4 ≤ 64 ∧
    255 < 2 ^ 8 ∧ readVariableWidth 8 4 (writeVariableWidth 8 4 255) = some (255, []) :=
  ⟨by decide, by decide, by decide, by decide,
    claim1_chunked_roundtrip 8 4 255 (by decide) (by decide) (by decide) (by decide)⟩

/-- C2: for every signed 64-bit integer `v`, `DecodeZigZag (EncodeZigZag v)`
equals `v`; and for every block exponent `k` in [0,63],
`DecodeZigZag (EncodeZigZag v k) k` equals `v`. -/
theorem claim2_zigzag_bijection (v : Int) (k : Nat)
    (h1 : -(2 ^ 63) ≤ v) (h2 : v < 2 ^ 63) (hk : k < 64) :
    DecodeZigZag (EncodeZigZag v) = v ∧
    DecodeZigZagBlock (EncodeZigZagBlock v k) k = v := by
  constructor
  · exact zigzag_plain_roundtrip v h1 h2
  · have hlt : EncodeZigZagBlock v k < 2 ^ 64 := by
      simp only [EncodeZigZagBlock]
      exact Nat.mod_lt _ (by positivity)
    rw [decodeZigZagBlock_eq_spec _ k hlt hk, encodeZigZagBlock_eq_spec v k h1 h2 hk,
      spec_block_roundtrip]

theorem claim2_zigzag_bijection_witness :
    -(2 ^ 63) ≤ (-5 : Int) ∧ (-5 : Int) < 2 ^ 63 ∧ (3 : Nat) < 64 ∧
    DecodeZigZag (EncodeZigZag (-5)) = -5 ∧
    DecodeZigZagBlock (EncodeZigZagBlock (-5) 3) 3 = -5 :=
  ⟨by decide, by decide, by decide,
    (claim2_zigzag_bijection (-5) 3 (by decide) (by decide) (by decide)).1,
    (claim2_zigzag_bijection (-5) 3 (by decide) (by decide) (by decide)).2⟩

/-- C3: a variable-width read (unsigned, and the signed variant) over a
stream that is exhausted before the encoded value is fully resolved (a raw
bit read returns fewer bits than requested) fails with `none`: no partial
value is treated as a valid result. -/
theorem claim3_truncated_read_fails (W C z val n : Nat)
    (hW : W = 8 ∨ W = 16 ∨ W = 32 ∨ W = 64) (hC1 : 1 ≤ C) (hC2 : C ≤ 64)
    (hval : val < 2 ^ W) (hn : n < (writeVariableWidth W C val).length) :
    readVariableWidth W C ((writeVariableWidth W C val).take n) = none ∧
    readVariableWidthSigned W C z ((writeVariableWidth W C val).take n) = none := by
  have hW1 : 1 ≤ W := by rcases hW with h | h | h | h <;> omega
  have hfail : readVariableWidth W C ((writeVariableWidth W C val).take n) = none := by
    unfold readVariableWidth writeVariableWidth at *
    have hv0 : val < 2 ^ (W - 0) := by rw [Nat.sub_zero]; exact hval
    have hu0 : (vwEncodeAux C W W val).take n ++ (vwEncodeAux C W W val).drop n
        = vwEncodeAux C W (W - 0) val := by
      rw [Nat.sub_zero]
      exact List.take_append_drop n _
    have hl0 : ((vwEncodeAux C W W val).take n).length
        < (vwEncodeAux C W (W - 0) val).length := by
      rw [Nat.sub_zero, List.length_take]
      omega
    exact vw_aux_prefix_fail W C W 0 0 val _ _ hC1 (by omega) (by omega) hv0 hu0 hl0
  refine ⟨hfail, ?_⟩
  unfold readVariableWidthSigned
  rw [hfail]

theorem claim3_truncated_read_fails_witness :
    ((8 : Nat) = 8 ∨ (8 : Nat) = 16 ∨ (8 : Nat) = 32 ∨ (8 : Nat) = 64) ∧ 1 ≤ 4 ∧ 4 ≤ 64 ∧
    255 < 2 ^ 8 ∧ 5 < (writeVariableWidth 8 4 255).length ∧
    (readVariableWidth 8 4 ((writeVariableWidth 8 4 255).take 5) = none ∧
      readVariableWidthSigned 8 4 0 ((writeVariableWidth 8 4 255).take 5) = none) :=
  ⟨by decide, by decide, by decide, by decide, by decide,
    claim3_truncated_read_fails 8 4 0 255 5 (by decide) (by decide) (by decide)
      (by decide) (by decide)⟩

/-- C4: for every signed 64-bit `v` and block exponent `k` in [0,63], the
source `EncodeZigZag(val, block_exponent)` equals the spec's reference
definition, and for every unsigned 64-bit `u` the source
`DecodeZigZag(val, block_exponent)` equals the spec's reference inverse. -/
theorem claim4_block_zigzag_matches_spec (v : Int) (u k : Nat)
    (h1 : -(2 ^ 63) ≤ v) (h2 : v < 2 ^ 63) (hu : u < 2 ^ 64) (hk : k < 64) :
    EncodeZigZagBlock v k = specEncodeZigZagBlock v k ∧
    DecodeZigZagBlock u k = specDecodeZigZagBlock u k :=
  ⟨encodeZigZagBlock_eq_spec v k h1 h2 hk, decodeZigZagBlock_eq_spec u k hu hk⟩

theorem claim4_block_zigzag_matches_spec_witness :
    -(2 ^ 63) ≤ (-9 : Int) ∧ (-9 : Int) < 2 ^ 63 ∧ (100 : Nat) < 2 ^ 64 ∧ (2 : Nat) < 64 ∧
    (EncodeZigZagBlock (-9) 2 = specEncodeZigZagBlock (-9) 2 ∧
      DecodeZigZagBlock 100 2 = specDecodeZigZagBlock 100 2) :=
  ⟨by decide, by decide, by decide, by decide,
    claim4_block_zigzag_matches_spec (-9) 100 2 (by decide) (by decide) (by decide)
      (by decide)⟩

/-- C5: for every value `x` of an unsigned type of bit width `w`,
`GetLowerBits(x, n)` with `n` equal to the full width returns `x` unchanged
(taking the branch that avoids a shift by the full width), and for `n`
strictly below the width it masks to the `n` least-significant bits. -/
theorem claim5_getLowerBits (w x n : Nat) (hx : x < 2 ^ w) :
    (n = w → GetLowerBits w x n = x) ∧ (n < w → GetLowerBits w x n = x % 2 ^ n) := by
  constructor
  · intro h
    unfold GetLowerBits
    rw [if_pos h.symm]
  · intro h
    unfold GetLowerBits
    rw [if_neg (by omega), Nat.shiftLeft_eq, one_mul, Nat.and_pow_two_sub_one_eq_mod]

theorem claim5_getLowerBits_witness :
    200 < 2 ^ 8 ∧ GetLowerBits 8 200 8 = 200 ∧ GetLowerBits 8 200 3 = 200 % 2 ^ 3 :=
  ⟨by decide, (claim5_getLowerBits 8 200 8 (by decide)).1 rfl,
    (claim5_getLowerBits 8 200 3 (by decide)).2 (by decide)⟩

/-- C6: for every reader state, `OnlyZeroesLeft` returns true whenever
`ReachedEnd` is true, and never returns true while a non-zero bit remains
ahead of the read position; the default `BitReaderInterface` implementation
returns exactly the value of `ReachedEnd`. -/
theorem claim6_onlyZeroesLeft (r : BitReaderWord64) :
    (ReachedEnd r = true → OnlyZeroesLeft r = true) ∧
    (OnlyZeroesLeft r = true →
      ∀ i, r.pos ≤ i → i < capacity r → bufferBit r i = false) ∧
    defaultOnlyZeroesLeft r = ReachedEnd r := by
  refine ⟨?_, ?_, rfl⟩
  · intro h
    unfold OnlyZeroesLeft
    rw [h, Bool.true_or]
  · intro h i hpos hcap
    unfold OnlyZeroesLeft at h
    rcases Bool.or_eq_true_iff.mp h with h1 | h2
    · unfold ReachedEnd at h1
      have h3 := of_decide_eq_true h1
      unfold capacity at h3 hcap
      omega
    · exact of_decide_eq_true h2 i hcap hpos

theorem claim6_onlyZeroesLeft_witness :
    ReachedEnd ⟨[0], 64⟩ = true ∧ OnlyZeroesLeft ⟨[0], 64⟩ = true :=
  ⟨by decide, (claim6_onlyZeroesLeft ⟨[0], 64⟩).1 (by decide)⟩

/-- C7: for every string of '0'/'1' characters and every `N ≥ 1`,
`PadToWord<N>` appends only '0' characters at the end (never prepends) until
the length is a multiple of `N`, leaving the original characters in place;
in particular `PadToWord<8>("101")` equals `"10100000"`. -/
theorem claim7_padToWord (N : Nat) (s : List Char) (hN : 1 ≤ N) :
    (∃ m, PadToWord N s = s ++ List.replicate m '0') ∧
    (PadToWord N s).length % N = 0 ∧
    PadToWord 8 ['1', '0', '1'] = ['1', '0', '1', '0', '0', '0', '0', '0'] :=
  ⟨padToWord_append N s, padToWord_length N hN s, rfl⟩

theorem claim7_padToWord_witness :
    1 ≤ 8 ∧ (∃ m, PadToWord 8 ['1', '0', '1'] = ['1', '0', '1'] ++ List.replicate m '0') ∧
    (PadToWord 8 ['1', '0', '1']).length % 8 = 0 :=
  ⟨by decide, (claim7_padToWord 8 ['1', '0', '1'] (by decide)).1,
    (claim7_padToWord 8 ['1', '0', '1'] (by decide)).2.1⟩

/-- C8 counterexample: the claim as stated fails on the code.  The source
computes `(num_bits + (N - 1)) / N` in wrapping `size_t` arithmetic, so at
the representable input `bits = 2^64 - 1`, `N = 8` it returns
`((2^64 - 1 + 7) mod 2^64) / 8 = 0`, not the ceiling `2^61`: the ceiling
characterization `bits ≤ N * r` is violated there. -/
theorem claim8_dataSizeBytes_counterexample :
    NumBitsToNumWords 8 (2 ^ 64 - 1) = 0 ∧
    ¬ (2 ^ 64 - 1 ≤ 8 * NumBitsToNumWords 8 (2 ^ 64 - 1)) := by
  constructor <;> decide

/-- C8 (amended): `GetDataSizeBytes` returns `NumBitsToNumWords<8>` of the
bit count; `NumBitsToNumWords<N>(bits)` equals the ceiling of `bits / N`
(characterized by `bits ≤ N*r < bits + N`) for every `N ≥ 1` whenever the
`size_t` sum `bits + (N - 1)` does not wrap (`bits + (N - 1) < 2^64`); and,
under the same no-wrap condition for the written bit count, the byte copy
spans exactly that many bytes of the word array. -/
theorem claim8_dataSizeBytes (N bits : Nat) (w : BitWriterWord64) (hN : 1 ≤ N)
    (hov : bits + (N - 1) < 2 ^ 64)
    (hw : GetNumBits w ≤ 64 * w.buffer.length) (hov2 : GetNumBits w + 7 < 2 ^ 64) :
    GetDataSizeBytes w = NumBitsToNumWords 8 (GetNumBits w) ∧
    (bits ≤ N * NumBitsToNumWords N bits ∧ N * NumBitsToNumWords N bits < bits + N) ∧
    (GetDataCopy w).length = GetDataSizeBytes w :=
  ⟨rfl, numBitsToNumWords_ceil N bits hN hov, getDataCopy_length w hw hov2⟩

theorem claim8_dataSizeBytes_witness :
    1 ≤ 5 ∧ 13 + (5 - 1) < 2 ^ 64 ∧
    GetNumBits ⟨[0, 0], 100⟩ ≤ 64 * (⟨[0, 0], 100⟩ : BitWriterWord64).buffer.length ∧
    GetNumBits ⟨[0, 0], 100⟩ + 7 < 2 ^ 64 ∧
    (13 ≤ 5 * NumBitsToNumWords 5 13 ∧ 5 * NumBitsToNumWords 5 13 < 13 + 5) ∧
    (GetDataCopy ⟨[0, 0], 100⟩).length = GetDataSizeBytes ⟨[0, 0], 100⟩ :=
  ⟨by decide, by decide, by decide, by decide,
    (claim8_dataSizeBytes 5 13 ⟨[0, 0], 100⟩ (by decide) (by decide) (by decide)
      (by decide)).2.1,
    (claim8_dataSizeBytes 5 13 ⟨[0, 0], 100⟩ (by decide) (by decide) (by decide)
      (by decide)).2.2⟩

/-- C9: for every signed 64-bit integer `v`, the block zigzag encoder with
block exponent 0 coincides with the plain zigzag encoder, and likewise the
block decoder at exponent 0 coincides with the plain decoder on every
unsigned 64-bit `u`. -/
theorem claim9_block_zero_degenerates (v : Int) (u : Nat)
    (h1 : -(2 ^ 63) ≤ v) (h2 : v < 2 ^ 63) (hu : u < 2 ^ 64) :
    EncodeZigZagBlock v 0 = EncodeZigZag v ∧ DecodeZigZagBlock u 0 = DecodeZigZag u := by
  constructor
  · rw [encodeZigZagBlock_eq_spec v 0 h1 h2 (by norm_num), specEncode_zero,
      encodeZigZag_eq v h1 h2]
  · rw [decodeZigZagBlock_eq_spec u 0 hu (by norm_num), specDecode_zero,
      decodeZigZag_eq u hu]

theorem claim9_block_zero_degenerates_witness :
    -(2 ^ 63) ≤ (-7 : Int) ∧ (-7 : Int) < 2 ^ 63 ∧ (13 : Nat) < 2 ^ 64 ∧
    (EncodeZigZagBlock (-7) 0 = EncodeZigZag (-7) ∧
      DecodeZigZagBlock 13 0 = DecodeZigZag 13) :=
  ⟨by decide, by decide, by decide,
    claim9_block_zero_degenerates (-7) 13 (by decide) (by decide) (by decide)⟩

/-- C10: for every word buffer (with each word fitting the word width),
`StreamToBuffer` applied to `BufferToStream` of the buffer yields exactly the
buffer back: converting to the left-to-right '0'/'1' stream and back is the
identity. -/
theorem claim10_stream_buffer_roundtrip (w : Nat) (buffer : List Nat) (hw : 1 ≤ w)
    (hb : ∀ x ∈ buffer, x < 2 ^ w) :
    StreamToBuffer w (BufferToStream w buffer) = buffer :=
  stream_buffer_roundtrip_aux w hw buffer hb

theorem claim10_stream_buffer_roundtrip_witness :
    1 ≤ 8 ∧ (∀ x ∈ [5, 255], x < 2 ^ 8) ∧
    StreamToBuffer 8 (BufferToStream 8 [5, 255]) = [5, 255] :=
  ⟨by decide, by decide,
    claim10_stream_buffer_roundtrip 8 [5, 255] (by decide) (by decide)⟩

end spvutils
